import Mathlib

/-!
Shallow embedding of the CMAC tile-coding / TD(lambda) core of the repository
(source file CMAC.py, classes CMAC and QvalueCMAC), together with theorems
settling the specification claims about it.

Modelling conventions:
* Python floats are modelled as exact rationals.
* Python dictionaries keyed by feature names are modelled as association
  lists (List (String × α)); the configured features keep their insertion
  order, which is the canonical state ordering the source builds from
  features_properties_dict.keys().
* NumPy tensors (the weight and eligibility arrays) are modelled as total
  maps from an index triple (per-feature tile tuple, tiling index, action
  index) to a rational.  Allocation and bounds/wrap-around of concrete
  array dimensions are not modelled; the bound theorems show that in-range
  states index within the allocated numBins+1 slots.
* Fallible Python code (exceptions) is modelled with Except.  The failure
  raised by the assert in CMAC.get_tiles (a Python AssertionError, which is
  the specification's InvalidStateError failure mode) is the constructor
  invalidStateError; dictionary lookup failure on an unknown action name
  (Python KeyError, the specification's UnknownActionError failure mode) is
  keyError; division by zero is zeroDivision.  configurationError is the
  specification's ConfigurationError; the source never raises it.
* The randomness of np.random.random() at construction is modelled by
  passing the drawn numbers in as an explicit function argument.
-/

namespace CMACSpec

/-- Python's int() conversion on a real number: truncation toward zero. -/
def pyTrunc (q : ℚ) : ℤ := if 0 ≤ q then ⌊q⌋ else -⌊-q⌋

/-- The failure modes of the modelled code (see the module comment). -/
inductive PyError where
  | zeroDivision
  | invalidStateError
  | keyError
  | configurationError
deriving DecidableEq

/-- One feature's configuration tuple (min range, max range, number of bins),
as stored in features_properties_dict. -/
structure FeatureSpec where
  min : ℚ
  max : ℚ
  numBins : ℤ
deriving DecidableEq

/-- A state dictionary mapping feature names to values. -/
abbrev StateMap := List (String × ℚ)

/-- Value of a feature in a state dictionary (state_dict[key]; the code only
reads keys that are present, after the key-set assert). -/
def stateVal (s : StateMap) (f : String) : ℚ := (s.lookup f).getD 0

/-- The CMAC tiling object.  The source's derived dictionaries min_range,
max_range, num_bins, interval_size and offset are recovered below as
functions of the stored configuration; rand holds the np.random.random()
draws (one per feature and tiling, each in [0,1)) used at construction. -/
structure CMAC where
  features : List (String × FeatureSpec)
  num_tilings : ℕ
  rand : String → ℕ → ℚ

/-- Lookup of a feature's spec (the per-feature dictionaries of CMAC.__init__). -/
def CMAC.featSpec (c : CMAC) (f : String) : FeatureSpec :=
  (c.features.lookup f).getD ⟨0, 0, 0⟩

/-- The configured feature names, in insertion order (min_range.keys()). -/
def CMAC.keysList (c : CMAC) : List String := c.features.map Prod.fst

def CMAC.min_range (c : CMAC) (f : String) : ℚ := (c.featSpec f).min

def CMAC.max_range (c : CMAC) (f : String) : ℚ := (c.featSpec f).max

def CMAC.num_bins (c : CMAC) (f : String) : ℤ := (c.featSpec f).numBins

/-- interval_size[key] = (max_range[key] - min_range[key])/float(num_bins[key])
(CMAC.__init__ line 204). -/
def CMAC.interval_size (c : CMAC) (f : String) : ℚ :=
  (c.max_range f - c.min_range f) / ((c.num_bins f : ℚ))

/-- offset[key][tiling] = np.random.random() * interval_size[key]
(CMAC.__init__ line 218). -/
def CMAC.offset (c : CMAC) (f : String) (t : ℕ) : ℚ :=
  c.rand f t * c.interval_size f

/-- CMAC.__init__: computes the derived per-feature dictionaries and draws the
offsets.  The only failure the source can raise here is the float division
by zero in interval_size when a feature has num_bins = 0; no feature-spec
validation of any kind is performed. -/
def CMAC.construct (features : List (String × FeatureSpec)) (num_tilings : ℕ)
    (rand : String → ℕ → ℚ) : Except PyError CMAC :=
  if features.all (fun p => p.2.numBins ≠ 0) then
    .ok ⟨features, num_tilings, rand⟩
  else
    .error .zeroDivision

/-- The per-feature, per-tiling tile coordinate of CMAC.get_tiles line 241:
int(float(value - min_range - offset)/float(interval_size)). -/
def CMAC.tileCoord (c : CMAC) (v : ℚ) (f : String) (t : ℕ) : ℤ :=
  pyTrunc ((v - c.min_range f - c.offset f t) / c.interval_size f)

/-- The condition checked by the assert of CMAC.get_tiles line 235:
sorted(state_dict.keys()) == sorted(self.min_range.keys()), i.e. the state's
key list is a permutation of the configured key list. -/
def keysMatch (c : CMAC) (s : StateMap) : Prop :=
  (s.map Prod.fst).Perm c.keysList

instance (c : CMAC) (s : StateMap) : Decidable (keysMatch c s) :=
  List.decidablePerm _ _

/-- CMAC.get_tiles for an explicit tiling index t (the form used by
QvalueCMAC; the omitted-argument form computes the same coordinate for every
tiling index).  The assert's failure (a Python AssertionError, the spec's
InvalidStateError failure mode) is modelled as invalidStateError. -/
def CMAC.get_tiles (c : CMAC) (s : StateMap) (t : ℕ) :
    Except PyError (String → ℤ) :=
  if keysMatch c s then
    .ok (fun f => c.tileCoord (stateVal s f) f t)
  else
    .error .invalidStateError

/-- Index into the weight / eligibility tensors: the per-feature tile tuple
(in canonical state order), the tiling index, and the action index. -/
abbrev TensorIdx := List ℤ × ℕ × ℕ

/-- actions_map construction of QvalueCMAC.__init__ lines 35-37: enumerate
the mnemonics list and let each name map to its index (a later duplicate
would overwrite an earlier one, as in a Python dict). -/
def buildActionsMap (l : List String) : String → Option ℕ :=
  l.enum.foldl (fun m p => fun x => if x = p.2 then some p.1 else m x)
    (fun _ => none)

/-- The TD(lambda) action-value approximator.  weight and eligibility are the
two NumPy tensors, modelled as total maps on the index space. -/
structure QvalueCMAC where
  cmac : CMAC
  Lambda : ℚ
  Alpha : ℚ
  actions : List String
  weight : TensorIdx → ℚ
  eligibility : TensorIdx → ℚ

/-- actions_map of this approximator. -/
def QvalueCMAC.actions_map (q : QvalueCMAC) : String → Option ℕ :=
  buildActionsMap q.actions

/-- The canonical state ordering (QvalueCMAC.__init__ line 40). -/
def QvalueCMAC.state_order (q : QvalueCMAC) : List String := q.cmac.keysList

/-- QvalueCMAC.__init__: builds the internal CMAC, then initializes the weight
tensor to Q0/float(num_tilings) everywhere (np.ones * Q0/num_tilings, which
raises ZeroDivisionError when num_tilings = 0) and the eligibility tensor to
zero (reset_eligibility). -/
def QvalueCMAC.construct (features : List (String × FeatureSpec))
    (num_tilings : ℕ) (action_mnemonics_list : List String)
    (Lambda Alpha Q0 : ℚ) (rand : String → ℕ → ℚ) :
    Except PyError QvalueCMAC := do
  let c ← CMAC.construct features num_tilings rand
  if num_tilings = 0 then
    .error .zeroDivision
  else
    .ok { cmac := c, Lambda := Lambda, Alpha := Alpha,
          actions := action_mnemonics_list,
          weight := fun _ => Q0 / (num_tilings : ℚ),
          eligibility := fun _ => 0 }

/-- QvalueCMAC._get_state_as_tile_tuple: encode the state for one tiling and
read off the per-feature coordinates in canonical state order. -/
def QvalueCMAC.get_state_as_tile_tuple (q : QvalueCMAC) (s : StateMap)
    (t : ℕ) : Except PyError (List ℤ) :=
  (q.cmac.get_tiles s t).map (fun tiles => q.state_order.map tiles)

/-- The pure value of the tile tuple when the state is valid (the ok payload
of get_state_as_tile_tuple). -/
def QvalueCMAC.tileTupleFn (q : QvalueCMAC) (s : StateMap) (t : ℕ) : List ℤ :=
  q.state_order.map (fun f => q.cmac.tileCoord (stateVal s f) f t)

/-- QvalueCMAC.get_qvalue: translate the action name (KeyError if unknown),
then sum the weight entries at the state's tile tuple over all tilings.
The source only reads fields here, so the operation is modelled as a pure
function returning the value: it has no side effects by construction. -/
def QvalueCMAC.get_qvalue (q : QvalueCMAC) (s : StateMap) (a : String) :
    Except PyError ℚ :=
  match q.actions_map a with
  | none => .error .keyError
  | some av =>
    (List.range q.cmac.num_tilings).foldlM
      (fun value t =>
        (q.get_state_as_tile_tuple s t).map
          (fun tup => value + q.weight (tup, t, av)))
      0

/-- QvalueCMAC._get_best_action_and_qvalue_for_state.  The random.choice of
the initial incumbent is modelled by the explicit argument a0; the scan
iterates the configured action names (the source iterates the keys of
actions_map, whose order a Python dict leaves unspecified; the theorems
proved below are independent of the scan order). -/
def QvalueCMAC.get_best_action_and_qvalue_for_state (q : QvalueCMAC)
    (s : StateMap) (a0 : String) : Except PyError (String × ℚ) := do
  let v0 ← q.get_qvalue s a0
  q.actions.foldlM
    (fun best a =>
      (q.get_qvalue s a).map
        (fun v => if best.2 < v then (a, v) else best))
    (a0, v0)

/-- The global decay self.eligibility *= self.Lambda (line 135 of the
source), the first step of update_eligibilities. -/
def QvalueCMAC.decay (q : QvalueCMAC) : QvalueCMAC :=
  { q with eligibility := fun i => q.eligibility i * q.Lambda }

/-- QvalueCMAC.update_eligibilities: decay every trace by Lambda, then for
each tiling zero the cells of every action at the current state's
(tile tuple, tiling) and set the acting action's cell to 1.  (On the error
paths the Python object keeps the mutations already applied; the model
returns only the error, which is all the claims need.) -/
def QvalueCMAC.update_eligibilities (q : QvalueCMAC) (s : StateMap)
    (a : String) : Except PyError QvalueCMAC :=
  match q.decay.actions_map a with
  | none => .error .keyError
  | some act =>
    (List.range q.decay.cmac.num_tilings).foldlM
      (fun qc t =>
        (qc.get_state_as_tile_tuple s t).map
          (fun tup =>
            { qc with eligibility := fun i =>
                if i = (tup, t, act) then 1
                else if i.1 = tup ∧ i.2.1 = t then 0
                else qc.eligibility i }))
      q.decay

/-- QvalueCMAC.reset_eligibility. -/
def QvalueCMAC.reset_eligibility (q : QvalueCMAC) : QvalueCMAC :=
  { q with eligibility := fun _ => 0 }

/-- QvalueCMAC.update_weights: weight += (Alpha/float(num_tilings)) *
(r + new_qval - old_qval) * eligibility, elementwise.  (For objects built by
QvalueCMAC.construct, num_tilings is nonzero.) -/
def QvalueCMAC.update_weights (q : QvalueCMAC) (r old_qval new_qval : ℚ) :
    QvalueCMAC :=
  { q with weight := fun i =>
      q.weight i +
        (q.Alpha / (q.cmac.num_tilings : ℚ)) * (r + new_qval - old_qval) *
          q.eligibility i }

/-! ### Basic lemmas about truncation toward zero -/

theorem pyTrunc_eq_floor {q : ℚ} (h : 0 ≤ q) : pyTrunc q = ⌊q⌋ := by
  simp [pyTrunc, h]

theorem pyTrunc_of_neg {q : ℚ} (h : ¬ 0 ≤ q) : pyTrunc q = -⌊-q⌋ := by
  simp [pyTrunc, h]

theorem pyTrunc_add_one {q : ℚ} (h : 0 ≤ q ∨ q ≤ -1) :
    pyTrunc (q + 1) = pyTrunc q + 1 := by
  rcases h with h | h
  · rw [pyTrunc_eq_floor h, pyTrunc_eq_floor (by linarith), Int.floor_add_one]
  · have h2 : ¬ (0 ≤ q) := by linarith
    by_cases h3 : 0 ≤ q + 1
    · have hq : q = -1 := le_antisymm h (by linarith)
      subst hq
      rw [pyTrunc_eq_floor h3, pyTrunc_of_neg h2]
      norm_num
    · have h4 : -(q + 1) + 1 = -q := by ring
      rw [pyTrunc_of_neg h2, pyTrunc_of_neg h3]
      have h5 := Int.floor_add_one (-(q + 1))
      rw [h4] at h5
      omega

theorem pyTrunc_nonneg {q : ℚ} (h : -1 < q) : 0 ≤ pyTrunc q := by
  by_cases h0 : 0 ≤ q
  · rw [pyTrunc_eq_floor h0]
    exact Int.floor_nonneg.mpr h0
  · push_neg at h0
    have h1 : ⌊-q⌋ = 0 := by
      rw [Int.floor_eq_zero_iff, Set.mem_Ico]
      constructor <;> linarith
    rw [pyTrunc_of_neg (not_le.mpr h0), h1]
    simp

theorem pyTrunc_le_of_le {q : ℚ} {n : ℤ} (hn : 0 ≤ n) (h : q ≤ (n : ℚ)) :
    pyTrunc q ≤ n := by
  by_cases h0 : 0 ≤ q
  · rw [pyTrunc_eq_floor h0]
    have h1 := Int.floor_le_floor h
    rwa [Int.floor_intCast] at h1
  · push_neg at h0
    have h1 : 0 ≤ ⌊-q⌋ := Int.floor_nonneg.mpr (by linarith)
    rw [pyTrunc_of_neg (not_le.mpr h0)]
    omega

/-! ### The encoder's success and failure paths -/

theorem get_tiles_ok {c : CMAC} {s : StateMap} (t : ℕ) (h : keysMatch c s) :
    c.get_tiles s t = .ok (fun f => c.tileCoord (stateVal s f) f t) := by
  unfold CMAC.get_tiles
  rw [if_pos h]

theorem get_tiles_err {c : CMAC} {s : StateMap} (t : ℕ) (h : ¬ keysMatch c s) :
    c.get_tiles s t = .error .invalidStateError := by
  unfold CMAC.get_tiles
  rw [if_neg h]

theorem get_state_as_tile_tuple_ok {q : QvalueCMAC} {s : StateMap} (t : ℕ)
    (h : keysMatch q.cmac s) :
    q.get_state_as_tile_tuple s t = .ok (q.tileTupleFn s t) := by
  unfold QvalueCMAC.get_state_as_tile_tuple QvalueCMAC.tileTupleFn
  rw [get_tiles_ok t h]
  rfl

/-! ### Generic helpers: monadic folds that cannot fail, folds as sums -/

theorem foldlM_ok_of_inv {α β : Type} (g : α → β → Except PyError α)
    (h : α → β → α) (P : α → Prop) :
    ∀ (L : List β) (a0 : α),
      (∀ a b, b ∈ L → P a → g a b = .ok (h a b)) →
      (∀ a b, P a → P (h a b)) → P a0 →
      L.foldlM g a0 = .ok (L.foldl h a0)
  | [], _, _, _, _ => rfl
  | b :: L, a0, hg, hP, h0 => by
    have hbind : ∀ (x : α) (k : α → Except PyError α),
        (Except.ok x >>= k) = k x := fun _ _ => rfl
    rw [List.foldlM_cons, hg a0 b (List.mem_cons_self b L) h0, hbind,
      foldlM_ok_of_inv g h P L (h a0 b)
        (fun x y hy => hg x y (List.mem_cons_of_mem b hy)) hP (hP a0 b h0),
      List.foldl_cons]

theorem foldl_add_range (f : ℕ → ℚ) :
    ∀ (n : ℕ) (c : ℚ),
      (List.range n).foldl (fun acc t => acc + f t) c =
        c + ∑ t ∈ Finset.range n, f t
  | 0, c => by simp
  | n + 1, c => by
    rw [List.range_succ, List.foldl_append, foldl_add_range f n c,
      Finset.sum_range_succ, List.foldl_cons, List.foldl_nil, add_assoc]

/-! ### The actions dictionary -/

theorem buildActionsMap_concat (l : List String) (a x : String) :
    buildActionsMap (l ++ [a]) x =
      if x = a then some l.length else buildActionsMap l x := by
  unfold buildActionsMap
  rw [List.enum_append, List.foldl_append]
  rfl

theorem buildActionsMap_nil (x : String) : buildActionsMap [] x = none := rfl

theorem buildActionsMap_get (l : List String) (x : String) (i : ℕ) :
    buildActionsMap l x = some i → l[i]? = some x := by
  induction l using List.reverseRecOn with
  | nil => simp [buildActionsMap_nil]
  | append_singleton l a ih =>
    rw [buildActionsMap_concat]
    by_cases hx : x = a
    · rw [if_pos hx]
      intro h
      have hi : i = l.length := by injection h; omega
      subst hi hx
      rw [List.getElem?_append_right (le_refl _)]
      simp
    · rw [if_neg hx]
      intro h
      have h1 := ih h
      have h2 : i < l.length := by
        rcases List.getElem?_eq_some_iff.mp h1 with ⟨hlt, _⟩
        exact hlt
      rw [List.getElem?_append_left h2]
      exact h1

theorem buildActionsMap_mem (l : List String) (x : String) (h : x ∈ l) :
    ∃ i, buildActionsMap l x = some i := by
  induction l using List.reverseRecOn with
  | nil => cases h
  | append_singleton l a ih =>
    rw [List.mem_append] at h
    by_cases hx : x = a
    · exact ⟨l.length, by rw [buildActionsMap_concat, if_pos hx]⟩
    · have hl : x ∈ l := by
        rcases h with h | h
        · exact h
        · simp at h; exact absurd h hx
      rcases ih hl with ⟨i, hi⟩
      exact ⟨i, by rw [buildActionsMap_concat, if_neg hx]; exact hi⟩

theorem buildActionsMap_inj {l : List String} {a b : String} {i j : ℕ}
    (ha : buildActionsMap l a = some i) (hb : buildActionsMap l b = some j)
    (hab : a ≠ b) : i ≠ j := by
  intro hij
  subst hij
  have h1 := buildActionsMap_get l a i ha
  have h2 := buildActionsMap_get l b i hb
  rw [h1] at h2
  exact hab (by injection h2)

/-! ### The value lookup as a sum over tilings -/

theorem get_qvalue_ok {q : QvalueCMAC} {s : StateMap} {a : String} {av : ℕ}
    (hk : keysMatch q.cmac s) (ha : q.actions_map a = some av) :
    q.get_qvalue s a =
      .ok (∑ t ∈ Finset.range q.cmac.num_tilings,
        q.weight (q.tileTupleFn s t, t, av)) := by
  unfold QvalueCMAC.get_qvalue
  rw [show q.actions_map a = some av from ha]
  show (List.range q.cmac.num_tilings).foldlM
      (fun value t => (q.get_state_as_tile_tuple s t).map
        (fun tup => value + q.weight (tup, t, av))) 0 = _
  rw [foldlM_ok_of_inv _
      (fun value t => value + q.weight (q.tileTupleFn s t, t, av))
      (fun _ => True) (List.range q.cmac.num_tilings) 0
      (fun value t _ _ => by rw [get_state_as_tile_tuple_ok t hk]; rfl)
      (fun _ _ _ => trivial) trivial,
    foldl_add_range, zero_add]

/-! ### The eligibility update: decay, zero-slice, set-to-one -/

/-- tileTupleFn reads only the encoder configuration. -/
theorem tileTupleFn_congr {q q' : QvalueCMAC} (h : q'.cmac = q.cmac)
    (s : StateMap) (t : ℕ) : q'.tileTupleFn s t = q.tileTupleFn s t := by
  unfold QvalueCMAC.tileTupleFn QvalueCMAC.state_order
  rw [h]

/-- The effect on one tiling inside the loop of update_eligibilities: zero the
whole action slice at the state's cell, then set the acting action to 1. -/
def eligStep (q : QvalueCMAC) (s : StateMap) (act : ℕ)
    (qc : QvalueCMAC) (t : ℕ) : QvalueCMAC :=
  { qc with eligibility := fun i =>
      if i = (q.tileTupleFn s t, t, act) then 1
      else if i.1 = q.tileTupleFn s t ∧ i.2.1 = t then 0
      else qc.eligibility i }

theorem eligStep_cmac (q : QvalueCMAC) (s : StateMap) (act : ℕ)
    (qc : QvalueCMAC) (t : ℕ) : (eligStep q s act qc t).cmac = qc.cmac := rfl

theorem update_eligibilities_ok {q : QvalueCMAC} {s : StateMap} {a : String}
    {act : ℕ} (hk : keysMatch q.cmac s) (ha : q.actions_map a = some act) :
    q.update_eligibilities s a =
      .ok ((List.range q.cmac.num_tilings).foldl (eligStep q s act)
        q.decay) := by
  unfold QvalueCMAC.update_eligibilities
  rw [show q.decay.actions_map a = some act from ha]
  show (List.range q.cmac.num_tilings).foldlM
      (fun qc t =>
        (qc.get_state_as_tile_tuple s t).map
          (fun tup =>
            { qc with eligibility := fun i =>
                if i = (tup, t, act) then 1
                else if i.1 = tup ∧ i.2.1 = t then 0
                else qc.eligibility i })) q.decay = _
  exact foldlM_ok_of_inv _ (eligStep q s act) (fun qc => qc.cmac = q.cmac)
    (List.range q.cmac.num_tilings) _
    (fun qc t _ hc => by
      have hk' : keysMatch qc.cmac s := by rw [hc]; exact hk
      rw [get_state_as_tile_tuple_ok t hk', tileTupleFn_congr hc s t]
      rfl)
    (fun qc t hc => by
      show (eligStep q s act qc t).cmac = q.cmac
      rw [eligStep_cmac]
      exact hc)
    rfl

theorem eligStep_foldl_elig (q : QvalueCMAC) (s : StateMap) (act : ℕ) :
    ∀ (L : List ℕ) (q1 : QvalueCMAC) (i : TensorIdx),
      ((L.foldl (eligStep q s act) q1).eligibility i) =
        if i.2.1 ∈ L ∧ i.1 = q.tileTupleFn s i.2.1 then
          (if i.2.2 = act then 1 else 0)
        else q1.eligibility i := by
  intro L
  induction L with
  | nil => intro q1 i; simp
  | cons t L ih =>
    intro q1 i
    rw [List.foldl_cons, ih]
    obtain ⟨tup, t', ai⟩ := i
    by_cases h1 : t' ∈ L ∧ tup = q.tileTupleFn s t'
    · have hc1 : (tup, t', ai).2.1 ∈ t :: L ∧
          (tup, t', ai).1 = q.tileTupleFn s (tup, t', ai).2.1 :=
        ⟨List.mem_cons_of_mem t h1.1, h1.2⟩
      rw [if_pos h1, if_pos hc1]
    · rw [if_neg h1]
      show (if (tup, t', ai) = (q.tileTupleFn s t, t, act) then 1
        else if tup = q.tileTupleFn s t ∧ t' = t then (0 : ℚ)
        else q1.eligibility (tup, t', ai)) = _
      by_cases h2 : tup = q.tileTupleFn s t ∧ t' = t
      · have hcond : t' ∈ t :: L ∧ tup = q.tileTupleFn s t' := by
          constructor
          · rw [h2.2]; exact List.mem_cons_self t L
          · rw [h2.2, h2.1]
        rw [if_pos hcond]
        by_cases h3 : ai = act
        · rw [if_pos (by rw [h2.1, h2.2, h3]), if_pos h3]
        · rw [if_neg (by
            intro hcontra
            exact h3 (by injection hcontra with _ h; injection h)),
            if_pos h2, if_neg h3]
      · have hcond : ¬ (t' ∈ t :: L ∧ tup = q.tileTupleFn s t') := by
          rintro ⟨hm, he⟩
          rcases List.mem_cons.mp hm with rfl | hm
          · exact h2 ⟨he, rfl⟩
          · exact h1 ⟨hm, he⟩
        rw [if_neg hcond,
          if_neg (by
            intro hcontra
            injection hcontra with h h'
            injection h' with h'' _
            exact h2 ⟨h, h''⟩),
          if_neg h2]

/-! ### The best-action scan -/

/-- The incumbent-update step of the best-action loop: replace the incumbent
only on a strictly greater value. -/
def scanStep (qv : String → ℚ) (best : String × ℚ) (a : String) :
    String × ℚ :=
  if best.2 < qv a then (a, qv a) else best

/-- The value of get_qvalue on a success path, as a total function. -/
def qvD (q : QvalueCMAC) (s : StateMap) (a : String) : ℚ :=
  (q.get_qvalue s a).toOption.getD 0

theorem get_qvalue_eq_qvD {q : QvalueCMAC} {s : StateMap} {a : String}
    (hk : keysMatch q.cmac s) (ha : a ∈ q.actions) :
    q.get_qvalue s a = .ok (qvD q s a) := by
  rcases buildActionsMap_mem q.actions a ha with ⟨av, hav⟩
  rw [qvD, get_qvalue_ok hk hav]
  rfl

theorem scanStep_foldl_spec (qv : String → ℚ) :
    ∀ (L : List String) (b : String × ℚ), b.2 = qv b.1 →
      ((L.foldl (scanStep qv) b).2 = qv (L.foldl (scanStep qv) b).1) ∧
      ((L.foldl (scanStep qv) b).1 = b.1 ∨ (L.foldl (scanStep qv) b).1 ∈ L) ∧
      (∀ a ∈ L, qv a ≤ (L.foldl (scanStep qv) b).2) ∧
      (b.2 ≤ (L.foldl (scanStep qv) b).2) ∧
      ((∀ a ∈ L, qv a ≤ b.2) → L.foldl (scanStep qv) b = b) := by
  intro L
  induction L with
  | nil => intro b hb; simp [hb]
  | cons a L ih =>
    intro b hb
    rw [List.foldl_cons]
    have hb' : (scanStep qv b a).2 = qv (scanStep qv b a).1 := by
      unfold scanStep
      by_cases h : b.2 < qv a
      · rw [if_pos h]
      · rw [if_neg h]; exact hb
    have step_le : b.2 ≤ (scanStep qv b a).2 := by
      unfold scanStep
      by_cases h : b.2 < qv a
      · rw [if_pos h]; exact le_of_lt h
      · rw [if_neg h]
    have step_a_le : qv a ≤ (scanStep qv b a).2 := by
      unfold scanStep
      by_cases h : b.2 < qv a
      · rw [if_pos h]
      · rw [if_neg h]; exact le_of_not_lt h
    obtain ⟨ih1, ih2, ih3, ih4, _⟩ := ih (scanStep qv b a) hb'
    refine ⟨ih1, ?_, ?_, le_trans step_le ih4, ?_⟩
    · rcases ih2 with h | h
      · by_cases hc : b.2 < qv a
        · have hfst : (scanStep qv b a).1 = a := by
            unfold scanStep; rw [if_pos hc]
          rw [hfst] at h
          exact Or.inr (by rw [h]; exact List.mem_cons_self a L)
        · have hfst : (scanStep qv b a).1 = b.1 := by
            unfold scanStep; rw [if_neg hc]
          rw [hfst] at h
          exact Or.inl h
      · exact Or.inr (List.mem_cons_of_mem a h)
    · intro x hx
      rcases List.mem_cons.mp hx with rfl | hx
      · exact le_trans step_a_le ih4
      · exact ih3 x hx
    · intro hall
      have hba : ¬ (b.2 < qv a) :=
        not_lt.mpr (hall a (List.mem_cons_self a L))
      have hstep : scanStep qv b a = b := by unfold scanStep; rw [if_neg hba]
      rw [hstep]
      exact (ih b hb).2.2.2.2 (fun x hx => hall x (List.mem_cons_of_mem a hx))

theorem get_best_ok {q : QvalueCMAC} {s : StateMap} {a0 : String}
    (hk : keysMatch q.cmac s) (ha0 : a0 ∈ q.actions) :
    q.get_best_action_and_qvalue_for_state s a0 =
      .ok (q.actions.foldl (scanStep (qvD q s)) (a0, qvD q s a0)) := by
  unfold QvalueCMAC.get_best_action_and_qvalue_for_state
  rw [show q.get_qvalue s a0 = .ok (qvD q s a0)
    from get_qvalue_eq_qvD hk ha0]
  show q.actions.foldlM
      (fun best a =>
        (q.get_qvalue s a).map
          (fun v => if best.2 < v then (a, v) else best))
      (a0, qvD q s a0) = _
  exact foldlM_ok_of_inv _ (scanStep (qvD q s)) (fun _ => True) q.actions _
    (fun best a haL _ => by
      rw [show q.get_qvalue s a = .ok (qvD q s a)
        from get_qvalue_eq_qvD hk haL]
      rfl)
    (fun _ _ _ => trivial) trivial

/-! ### Concrete instances used by witnesses and counterexamples -/

/-- A one-feature encoder with min 0, max 1, one bin (interval size 1) whose
random draw is 1/2, so the offset is 1/2. -/
def cmacHalf : CMAC := ⟨[("x", ⟨0, 1, 1⟩)], 1, fun _ _ => 1/2⟩

/-- A one-feature encoder with min 0, max 4, two bins (interval size 2) and
zero offsets, with two tilings. -/
def cmacW : CMAC := ⟨[("x", ⟨0, 4, 2⟩)], 2, fun _ _ => 0⟩

/-- An approximator over cmacW with two actions, constant weight 3 and zero
eligibility. -/
def qW : QvalueCMAC := ⟨cmacW, 9/10, 1/2, ["A", "B"], fun _ => 3, fun _ => 0⟩

/-! ### Claim C3 -/

/-- C3: update_weights changes each weight cell by exactly
(Alpha/numTilings) * (r + q_new - q_old) * eligibility at that cell; cells
with zero eligibility are unchanged, and the eligibility tensor itself is
unchanged by the call. -/
theorem C3_update_weights_delta (q : QvalueCMAC) (r old_qval new_qval : ℚ)
    (i : TensorIdx) :
    ((q.update_weights r old_qval new_qval).weight i =
      q.weight i +
        (q.Alpha / (q.cmac.num_tilings : ℚ)) * (r + new_qval - old_qval) *
          q.eligibility i) ∧
    ((q.update_weights r old_qval new_qval).eligibility = q.eligibility) ∧
    (q.eligibility i = 0 →
      (q.update_weights r old_qval new_qval).weight i = q.weight i) := by
  refine ⟨rfl, rfl, fun h => ?_⟩
  show q.weight i +
      (q.Alpha / (q.cmac.num_tilings : ℚ)) * (r + new_qval - old_qval) *
        q.eligibility i = q.weight i
  rw [h, mul_zero, add_zero]

/-- Witness for C3 at a concrete approximator, reward and cell. -/
theorem C3_update_weights_delta_witness :
    qW.eligibility ([0], 0, 0) = 0 ∧
    (qW.update_weights 1 2 3).weight ([0], 0, 0) = qW.weight ([0], 0, 0) :=
  ⟨rfl, (C3_update_weights_delta qW 1 2 3 ([0], 0, 0)).2.2 rfl⟩

/-! ### Claim C4 -/

/-- C4: get_qvalue returns exactly the sum over all tilings of the weight at
(encode(s, tiling), tiling, actionIndex(a)); the operation is modelled as a
pure function because the source only reads fields, so it has no side
effects on the weight tensor, the eligibility tensor or the offsets. -/
theorem C4_get_qvalue_linear (q : QvalueCMAC) (s : StateMap) (a : String)
    (av : ℕ) (hk : keysMatch q.cmac s) (ha : q.actions_map a = some av) :
    q.get_qvalue s a =
      .ok (∑ t ∈ Finset.range q.cmac.num_tilings,
        q.weight (q.tileTupleFn s t, t, av)) :=
  get_qvalue_ok hk ha

/-- Witness for C4 at a concrete approximator, state and action. -/
theorem C4_get_qvalue_linear_witness :
    keysMatch qW.cmac [("x", 1)] ∧
    qW.actions_map "A" = some 0 ∧
    qW.get_qvalue [("x", 1)] "A" =
      .ok (∑ t ∈ Finset.range qW.cmac.num_tilings,
        qW.weight (qW.tileTupleFn [("x", 1)] t, t, 0)) :=
  ⟨by decide, rfl, C4_get_qvalue_linear qW [("x", 1)] "A" 0 (by decide) rfl⟩

/-! ### Claim C2 -/

/-- C2: after update_eligibilities(s, a), for every tiling the eligibility
entry at (encode(s, tiling), tiling, a) is exactly 1, every other action's
entry at that (tile, tiling) cell is exactly 0, and every entry not at one
of those (tile, tiling) cells is exactly Lambda times its previous value. -/
theorem C2_update_eligibilities_spec (q : QvalueCMAC) (s : StateMap)
    (a : String) (act : ℕ) (hk : keysMatch q.cmac s)
    (ha : q.actions_map a = some act) :
    ∃ q', q.update_eligibilities s a = .ok q' ∧
      (∀ t, t < q.cmac.num_tilings →
        q'.eligibility (q.tileTupleFn s t, t, act) = 1 ∧
        (∀ b bi, b ≠ a → q.actions_map b = some bi →
          q'.eligibility (q.tileTupleFn s t, t, bi) = 0) ∧
        (∀ ai, ai ≠ act → q'.eligibility (q.tileTupleFn s t, t, ai) = 0)) ∧
      (∀ i : TensorIdx,
        (∀ t, t < q.cmac.num_tilings →
          ¬ (i.1 = q.tileTupleFn s t ∧ i.2.1 = t)) →
        q'.eligibility i = q.eligibility i * q.Lambda) := by
  refine ⟨_, update_eligibilities_ok hk ha, ?_, ?_⟩
  · intro t ht
    have hcond : ((q.tileTupleFn s t, t, act) : TensorIdx).2.1 ∈
        List.range q.cmac.num_tilings ∧
        ((q.tileTupleFn s t, t, act) : TensorIdx).1 =
          q.tileTupleFn s ((q.tileTupleFn s t, t, act) : TensorIdx).2.1 :=
      ⟨List.mem_range.mpr ht, rfl⟩
    refine ⟨?_, ?_, ?_⟩
    · rw [eligStep_foldl_elig q s act _ _ _, if_pos hcond, if_pos rfl]
    · intro b bi hba hb
      have hne : bi ≠ act := buildActionsMap_inj hb ha hba
      have hcond' : ((q.tileTupleFn s t, t, bi) : TensorIdx).2.1 ∈
          List.range q.cmac.num_tilings ∧
          ((q.tileTupleFn s t, t, bi) : TensorIdx).1 =
            q.tileTupleFn s ((q.tileTupleFn s t, t, bi) : TensorIdx).2.1 :=
        ⟨List.mem_range.mpr ht, rfl⟩
      rw [eligStep_foldl_elig q s act _ _ _, if_pos hcond', if_neg hne]
    · intro ai hne
      have hcond' : ((q.tileTupleFn s t, t, ai) : TensorIdx).2.1 ∈
          List.range q.cmac.num_tilings ∧
          ((q.tileTupleFn s t, t, ai) : TensorIdx).1 =
            q.tileTupleFn s ((q.tileTupleFn s t, t, ai) : TensorIdx).2.1 :=
        ⟨List.mem_range.mpr ht, rfl⟩
      rw [eligStep_foldl_elig q s act _ _ _, if_pos hcond', if_neg hne]
  · intro i hi
    have hcond : ¬ (i.2.1 ∈ List.range q.cmac.num_tilings ∧
        i.1 = q.tileTupleFn s i.2.1) := by
      rintro ⟨hm, he⟩
      exact hi i.2.1 (List.mem_range.mp hm) ⟨he, rfl⟩
    rw [eligStep_foldl_elig q s act _ _ _, if_neg hcond]
    rfl

/-- Witness for C2 at a concrete approximator, state and action. -/
theorem C2_update_eligibilities_spec_witness :
    keysMatch qW.cmac [("x", 1)] ∧
    qW.actions_map "A" = some 0 ∧
    (∃ q', qW.update_eligibilities [("x", 1)] "A" = .ok q' ∧
      (∀ t, t < qW.cmac.num_tilings →
        q'.eligibility (qW.tileTupleFn [("x", 1)] t, t, 0) = 1 ∧
        (∀ b bi, b ≠ "A" → qW.actions_map b = some bi →
          q'.eligibility (qW.tileTupleFn [("x", 1)] t, t, bi) = 0) ∧
        (∀ ai, ai ≠ 0 →
          q'.eligibility (qW.tileTupleFn [("x", 1)] t, t, ai) = 0)) ∧
      (∀ i : TensorIdx,
        (∀ t, t < qW.cmac.num_tilings →
          ¬ (i.1 = qW.tileTupleFn [("x", 1)] t ∧ i.2.1 = t)) →
        q'.eligibility i = qW.eligibility i * qW.Lambda)) :=
  ⟨by decide, rfl,
    C2_update_eligibilities_spec qW [("x", 1)] "A" 0 (by decide) rfl⟩

/-! ### Claim C10 -/

/-- C10: immediately after construction with initial value Q0, get_qvalue
returns exactly Q0 for every valid state and configured action: the sum of
numTilings weights each equal to Q0/numTilings. -/
theorem C10_initial_qvalue (features : List (String × FeatureSpec))
    (num_tilings : ℕ) (actions : List String) (Lambda Alpha Q0 : ℚ)
    (rand : String → ℕ → ℚ) (q : QvalueCMAC) (s : StateMap) (a : String)
    (av : ℕ)
    (hq : QvalueCMAC.construct features num_tilings actions Lambda Alpha Q0
      rand = .ok q)
    (hk : keysMatch q.cmac s) (ha : q.actions_map a = some av) :
    q.get_qvalue s a = .ok Q0 := by
  unfold QvalueCMAC.construct CMAC.construct at hq
  by_cases hall : features.all (fun p => p.2.numBins ≠ 0)
  · rw [if_pos hall] at hq
    have hq' : (if num_tilings = 0 then
        (.error .zeroDivision : Except PyError QvalueCMAC)
      else
        .ok { cmac := ⟨features, num_tilings, rand⟩, Lambda := Lambda,
              Alpha := Alpha, actions := actions,
              weight := fun _ => Q0 / (num_tilings : ℚ),
              eligibility := fun _ => 0 }) = .ok q := hq
    by_cases hnt : num_tilings = 0
    · rw [if_pos hnt] at hq'
      exact absurd hq' (by simp)
    · rw [if_neg hnt] at hq'
      have hqq := (Except.ok.injEq _ _).mp hq'
      subst hqq
      rw [get_qvalue_ok hk ha]
      have hcast : ((num_tilings : ℚ)) ≠ 0 := Nat.cast_ne_zero.mpr hnt
      congr 1
      show ∑ _t ∈ Finset.range num_tilings, Q0 / (num_tilings : ℚ) = Q0
      rw [Finset.sum_const, Finset.card_range, nsmul_eq_mul,
        mul_div_cancel₀ _ hcast]
  · rw [if_neg hall] at hq
    exact absurd hq (by simp [Bind.bind, Except.bind])

/-- The approximator produced by constructing over cmacW's configuration
with two tilings, actions A and B, and initial value 5 (each weight cell is
5/2). -/
def qInit : QvalueCMAC :=
  ⟨⟨[("x", ⟨0, 4, 2⟩)], 2, fun _ _ => 0⟩, 9/10, 1/2, ["A", "B"],
    fun _ => (5 : ℚ) / ((2 : ℕ) : ℚ), fun _ => 0⟩

/-- Witness for C10 at a concrete construction. -/
theorem C10_initial_qvalue_witness :
    QvalueCMAC.construct [("x", ⟨0, 4, 2⟩)] 2 ["A", "B"] (9/10) (1/2) 5
      (fun _ _ => 0) = .ok qInit ∧
    keysMatch qInit.cmac [("x", 1)] ∧
    qInit.actions_map "A" = some 0 ∧
    qInit.get_qvalue [("x", 1)] "A" = .ok 5 :=
  ⟨rfl, by decide, rfl,
    C10_initial_qvalue [("x", ⟨0, 4, 2⟩)] 2 ["A", "B"] (9/10) (1/2) 5
      (fun _ _ => 0) qInit [("x", 1)] "A" 0 rfl (by decide) rfl⟩

/-! ### Claim C7 -/

/-- C7: the best-action scan evaluates the value of every configured action
and returns an action attaining the greatest value together with that value;
the incumbent (the randomly chosen starting action a0) is replaced only by a
strictly greater value, so an incumbent that ties the maximum is retained. -/
theorem C7_best_action_max (q : QvalueCMAC) (s : StateMap) (a0 : String)
    (hk : keysMatch q.cmac s) (ha0 : a0 ∈ q.actions) :
    ∃ best v, q.get_best_action_and_qvalue_for_state s a0 = .ok (best, v) ∧
      best ∈ q.actions ∧
      q.get_qvalue s best = .ok v ∧
      (∀ a va, a ∈ q.actions → q.get_qvalue s a = .ok va → va ≤ v) ∧
      (∀ v0, q.get_qvalue s a0 = .ok v0 →
        (∀ a va, a ∈ q.actions → q.get_qvalue s a = .ok va → va ≤ v0) →
        best = a0) := by
  obtain ⟨s1, s2, s3, _, s5⟩ :=
    scanStep_foldl_spec (qvD q s) q.actions (a0, qvD q s a0) rfl
  have hbest_mem :
      (q.actions.foldl (scanStep (qvD q s)) (a0, qvD q s a0)).1 ∈
        q.actions := by
    rcases s2 with h | h
    · rw [h]; exact ha0
    · exact h
  refine ⟨(q.actions.foldl (scanStep (qvD q s)) (a0, qvD q s a0)).1,
    (q.actions.foldl (scanStep (qvD q s)) (a0, qvD q s a0)).2,
    ?_, hbest_mem, ?_, ?_, ?_⟩
  · rw [get_best_ok hk ha0]
  · rw [get_qvalue_eq_qvD hk hbest_mem, s1]
  · intro a va haL hv
    rw [get_qvalue_eq_qvD hk haL] at hv
    injection hv with h
    rw [← h]
    exact s3 a haL
  · intro v0 hv0 hall
    rw [get_qvalue_eq_qvD hk ha0] at hv0
    injection hv0 with h0
    have hall' : ∀ x ∈ q.actions, qvD q s x ≤ (a0, qvD q s a0).2 := by
      intro x hx
      have hx' := hall x (qvD q s x) hx (get_qvalue_eq_qvD hk hx)
      rw [← h0] at hx'
      exact hx'
    rw [s5 hall']

/-- Witness for C7 at a concrete approximator, state and incumbent. -/
theorem C7_best_action_max_witness :
    keysMatch qW.cmac [("x", 1)] ∧
    "A" ∈ qW.actions ∧
    (∃ best v,
      qW.get_best_action_and_qvalue_for_state [("x", 1)] "A" =
        .ok (best, v) ∧
      best ∈ qW.actions ∧
      qW.get_qvalue [("x", 1)] best = .ok v ∧
      (∀ a va, a ∈ qW.actions → qW.get_qvalue [("x", 1)] a = .ok va →
        va ≤ v) ∧
      (∀ v0, qW.get_qvalue [("x", 1)] "A" = .ok v0 →
        (∀ a va, a ∈ qW.actions → qW.get_qvalue [("x", 1)] a = .ok va →
          va ≤ v0) →
        best = "A")) :=
  ⟨by decide, by decide,
    C7_best_action_max qW [("x", 1)] "A" (by decide) (by decide)⟩

/-! ### Claim C9 -/

/-- Per-feature coordinate bound: with an offset in [0, intervalSize) and an
in-range value, the tile coordinate lies in [0, numBins]. -/
theorem tileCoord_bounds (c : CMAC) (f : String) (t : ℕ) (v : ℚ)
    (hoff0 : 0 ≤ c.offset f t) (hoff1 : c.offset f t < c.interval_size f)
    (hv0 : c.min_range f ≤ v) (hv1 : v ≤ c.max_range f) :
    0 ≤ c.tileCoord v f t ∧ c.tileCoord v f t ≤ c.num_bins f := by
  have hIpos : 0 < c.interval_size f := lt_of_le_of_lt hoff0 hoff1
  have hmm : 0 ≤ c.max_range f - c.min_range f := by linarith
  have hnbQ : 0 < ((c.num_bins f : ℚ)) := by
    by_contra hle
    push_neg at hle
    rcases eq_or_lt_of_le hle with heq | hlt
    · have hz : c.interval_size f = 0 := by
        unfold CMAC.interval_size
        rw [heq, div_zero]
      linarith
    · have hz : c.interval_size f ≤ 0 := by
        unfold CMAC.interval_size
        exact div_nonpos_iff.mpr (Or.inl ⟨hmm, le_of_lt hlt⟩)
      linarith
  have hnbne : ((c.num_bins f : ℚ)) ≠ 0 := ne_of_gt hnbQ
  have hInb : c.interval_size f * (c.num_bins f : ℚ) =
      c.max_range f - c.min_range f := by
    unfold CMAC.interval_size
    rw [div_mul_cancel₀ _ hnbne]
  have hq1 : -1 < (v - c.min_range f - c.offset f t) / c.interval_size f := by
    rw [lt_div_iff₀ hIpos]
    linarith
  have hq2 : (v - c.min_range f - c.offset f t) / c.interval_size f ≤
      ((c.num_bins f : ℚ)) := by
    rw [div_le_iff₀ hIpos, mul_comm]
    linarith
  have hnbZ : 0 < c.num_bins f := by exact_mod_cast hnbQ
  unfold CMAC.tileCoord
  exact ⟨pyTrunc_nonneg hq1, pyTrunc_le_of_le (le_of_lt hnbZ) hq2⟩

/-- C9: with offsets in [0, intervalSize) and all state values in range,
every per-feature coordinate lies in [0, numBins], so every entry of the
tile tuple built by _get_state_as_tile_tuple is nonnegative and below the
allocated tensor dimension numBins + 1. -/
theorem C9_inrange_bounds (q : QvalueCMAC) (s : StateMap) (t : ℕ)
    (hoff : ∀ f ∈ q.cmac.keysList,
      0 ≤ q.cmac.offset f t ∧ q.cmac.offset f t < q.cmac.interval_size f)
    (hval : ∀ f ∈ q.cmac.keysList,
      q.cmac.min_range f ≤ stateVal s f ∧
        stateVal s f ≤ q.cmac.max_range f) :
    (∀ f ∈ q.cmac.keysList,
      0 ≤ q.cmac.tileCoord (stateVal s f) f t ∧
      q.cmac.tileCoord (stateVal s f) f t ≤ q.cmac.num_bins f) ∧
    (∀ z ∈ q.tileTupleFn s t, ∃ f, f ∈ q.cmac.keysList ∧
      z = q.cmac.tileCoord (stateVal s f) f t ∧ 0 ≤ z ∧
      z < q.cmac.num_bins f + 1) := by
  have hmain : ∀ f ∈ q.cmac.keysList,
      0 ≤ q.cmac.tileCoord (stateVal s f) f t ∧
      q.cmac.tileCoord (stateVal s f) f t ≤ q.cmac.num_bins f :=
    fun f hf =>
      tileCoord_bounds q.cmac f t (stateVal s f) (hoff f hf).1 (hoff f hf).2
        (hval f hf).1 (hval f hf).2
  refine ⟨hmain, ?_⟩
  intro z hz
  unfold QvalueCMAC.tileTupleFn QvalueCMAC.state_order at hz
  rcases List.mem_map.mp hz with ⟨f, hf, hzf⟩
  refine ⟨f, hf, hzf.symm, ?_, ?_⟩
  · rw [← hzf]
    exact (hmain f hf).1
  · rw [← hzf]
    exact Int.lt_add_one_iff.mpr (hmain f hf).2

/-- Witness for C9 at a concrete approximator and in-range state. -/
theorem C9_inrange_bounds_witness :
    (∀ f ∈ qW.cmac.keysList,
      0 ≤ qW.cmac.offset f 0 ∧
        qW.cmac.offset f 0 < qW.cmac.interval_size f) ∧
    (∀ f ∈ qW.cmac.keysList,
      qW.cmac.min_range f ≤ stateVal [("x", 1)] f ∧
        stateVal [("x", 1)] f ≤ qW.cmac.max_range f) ∧
    ((∀ f ∈ qW.cmac.keysList,
      0 ≤ qW.cmac.tileCoord (stateVal [("x", 1)] f) f 0 ∧
      qW.cmac.tileCoord (stateVal [("x", 1)] f) f 0 ≤ qW.cmac.num_bins f) ∧
    (∀ z ∈ qW.tileTupleFn [("x", 1)] 0, ∃ f, f ∈ qW.cmac.keysList ∧
      z = qW.cmac.tileCoord (stateVal [("x", 1)] f) f 0 ∧ 0 ≤ z ∧
      z < qW.cmac.num_bins f + 1)) := by
  have hoff : ∀ f ∈ qW.cmac.keysList,
      0 ≤ qW.cmac.offset f 0 ∧
        qW.cmac.offset f 0 < qW.cmac.interval_size f := by
    intro f hf
    have hfx : f = "x" := by
      simp [qW, cmacW, CMAC.keysList] at hf
      exact hf
    subst hfx
    norm_num [qW, cmacW, CMAC.offset, CMAC.interval_size, CMAC.max_range,
      CMAC.min_range, CMAC.num_bins, CMAC.featSpec]
  have hval : ∀ f ∈ qW.cmac.keysList,
      qW.cmac.min_range f ≤ stateVal [("x", 1)] f ∧
        stateVal [("x", 1)] f ≤ qW.cmac.max_range f := by
    intro f hf
    have hfx : f = "x" := by
      simp [qW, cmacW, CMAC.keysList] at hf
      exact hf
    subst hfx
    norm_num [qW, cmacW, stateVal, CMAC.max_range, CMAC.min_range,
      CMAC.featSpec]
  exact ⟨hoff, hval, C9_inrange_bounds qW [("x", 1)] 0 hoff hval⟩

/-! ### Claim C1 -/

/-- C1 (amended): the tile coordinate returned by get_tiles is the quotient
(value - min - offset)/intervalSize truncated toward zero (Python int());
whenever that quotient is nonnegative this equals the floor formula of the
claim.  For negative quotients the code's truncation and the claim's floor
differ (see the counterexample). -/
theorem C1_tile_coordinate_floor (c : CMAC) (s : StateMap) (f : String)
    (t : ℕ) (hk : keysMatch c s)
    (h0 : 0 ≤ (stateVal s f - c.min_range f - c.offset f t) /
      c.interval_size f) :
    (c.get_tiles s t).map (fun g => g f) =
      .ok ⌊(stateVal s f - c.min_range f - c.offset f t) /
        c.interval_size f⌋ := by
  rw [get_tiles_ok t hk]
  show Except.ok (c.tileCoord (stateVal s f) f t) = _
  unfold CMAC.tileCoord
  rw [pyTrunc_eq_floor h0]

/-- C1 counterexample: with the one-bin encoder cmacHalf (offset 1/2,
interval size 1) and the in-range value 0, the code returns coordinate 0,
whereas the claim's floor formula gives -1. -/
theorem C1_tile_coordinate_floor_cex :
    (cmacHalf.get_tiles [("x", 0)] 0).map (fun g => g "x") = .ok 0 ∧
    ⌊(stateVal [("x", 0)] "x" - cmacHalf.min_range "x" -
        cmacHalf.offset "x" 0) / cmacHalf.interval_size "x"⌋ = -1 ∧
    (0 : ℤ) ≠ -1 := by
  refine ⟨?_, ?_, by decide⟩
  · rw [get_tiles_ok 0 (by decide)]
    show Except.ok (cmacHalf.tileCoord (stateVal [("x", 0)] "x") "x" 0) = _
    norm_num [CMAC.tileCoord, stateVal, pyTrunc, CMAC.offset,
      CMAC.interval_size, CMAC.min_range, CMAC.max_range, CMAC.num_bins,
      CMAC.featSpec, cmacHalf]
  · norm_num [stateVal, CMAC.offset, CMAC.interval_size, CMAC.min_range,
      CMAC.max_range, CMAC.num_bins, CMAC.featSpec, cmacHalf]

/-- Witness for the amended C1 at a value with nonnegative quotient. -/
theorem C1_tile_coordinate_floor_witness :
    keysMatch cmacHalf [("x", 1)] ∧
    0 ≤ (stateVal [("x", 1)] "x" - cmacHalf.min_range "x" -
      cmacHalf.offset "x" 0) / cmacHalf.interval_size "x" ∧
    (cmacHalf.get_tiles [("x", 1)] 0).map (fun g => g "x") =
      .ok ⌊(stateVal [("x", 1)] "x" - cmacHalf.min_range "x" -
        cmacHalf.offset "x" 0) / cmacHalf.interval_size "x"⌋ := by
  have h0 : 0 ≤ (stateVal [("x", 1)] "x" - cmacHalf.min_range "x" -
      cmacHalf.offset "x" 0) / cmacHalf.interval_size "x" := by
    norm_num [stateVal, CMAC.offset, CMAC.interval_size, CMAC.min_range,
      CMAC.max_range, CMAC.num_bins, CMAC.featSpec, cmacHalf]
  exact ⟨by decide, h0,
    C1_tile_coordinate_floor cmacHalf [("x", 1)] "x" 0 (by decide) h0⟩

/-! ### Claim C6 -/

/-- C6 (amended): for a fixed tiling, increasing a feature's value by one
intervalSize increases its tile coordinate by exactly 1, provided the
original quotient (value - min - offset)/intervalSize is not in the open
interval (-1, 0); in that interval Python's int() maps both quotients to 0
and the coordinate does not change (see the counterexample). -/
theorem C6_tile_monotonic (c : CMAC) (s s' : StateMap) (f : String) (t : ℕ)
    (hk : keysMatch c s) (hk' : keysMatch c s')
    (hI : c.interval_size f ≠ 0)
    (hv : stateVal s' f = stateVal s f + c.interval_size f)
    (hq : 0 ≤ (stateVal s f - c.min_range f - c.offset f t) /
        c.interval_size f ∨
      (stateVal s f - c.min_range f - c.offset f t) /
        c.interval_size f ≤ -1) :
    (c.get_tiles s t).map (fun g => g f) =
      .ok (c.tileCoord (stateVal s f) f t) ∧
    (c.get_tiles s' t).map (fun g => g f) =
      .ok (c.tileCoord (stateVal s f) f t + 1) := by
  refine ⟨?_, ?_⟩
  · rw [get_tiles_ok t hk]
    rfl
  rw [get_tiles_ok t hk']
  show Except.ok (c.tileCoord (stateVal s' f) f t) = _
  unfold CMAC.tileCoord
  rw [hv]
  have he : (stateVal s f + c.interval_size f - c.min_range f -
      c.offset f t) / c.interval_size f =
      (stateVal s f - c.min_range f - c.offset f t) / c.interval_size f +
        1 := by
    rw [show stateVal s f + c.interval_size f - c.min_range f -
        c.offset f t =
        (stateVal s f - c.min_range f - c.offset f t) + c.interval_size f
      from by ring, add_div, div_self hI]
  rw [he, pyTrunc_add_one hq]

/-- C6 counterexample: with cmacHalf (offset 1/2, interval size 1), the
values 0 and 0 + intervalSize = 1 both get tile coordinate 0. -/
theorem C6_tile_monotonic_cex :
    stateVal [("x", 1)] "x" =
      stateVal [("x", 0)] "x" + cmacHalf.interval_size "x" ∧
    (cmacHalf.get_tiles [("x", 0)] 0).map (fun g => g "x") = .ok 0 ∧
    (cmacHalf.get_tiles [("x", 1)] 0).map (fun g => g "x") = .ok 0 ∧
    (0 : ℤ) ≠ 0 + 1 := by
  refine ⟨?_, ?_, ?_, by decide⟩
  · norm_num [stateVal, CMAC.interval_size, CMAC.min_range, CMAC.max_range,
      CMAC.num_bins, CMAC.featSpec, cmacHalf]
  · rw [get_tiles_ok 0 (by decide)]
    show Except.ok (cmacHalf.tileCoord (stateVal [("x", 0)] "x") "x" 0) = _
    norm_num [CMAC.tileCoord, stateVal, pyTrunc, CMAC.offset,
      CMAC.interval_size, CMAC.min_range, CMAC.max_range, CMAC.num_bins,
      CMAC.featSpec, cmacHalf]
  · rw [get_tiles_ok 0 (by decide)]
    show Except.ok (cmacHalf.tileCoord (stateVal [("x", 1)] "x") "x" 0) = _
    norm_num [CMAC.tileCoord, stateVal, pyTrunc, CMAC.offset,
      CMAC.interval_size, CMAC.min_range, CMAC.max_range, CMAC.num_bins,
      CMAC.featSpec, cmacHalf]

/-- Witness for the amended C6 with zero offset (quotient nonnegative). -/
theorem C6_tile_monotonic_witness :
    keysMatch cmacW [("x", 1)] ∧
    keysMatch cmacW [("x", 3)] ∧
    cmacW.interval_size "x" ≠ 0 ∧
    stateVal [("x", 3)] "x" =
      stateVal [("x", 1)] "x" + cmacW.interval_size "x" ∧
    ((cmacW.get_tiles [("x", 1)] 0).map (fun g => g "x") =
      .ok (cmacW.tileCoord (stateVal [("x", 1)] "x") "x" 0) ∧
    (cmacW.get_tiles [("x", 3)] 0).map (fun g => g "x") =
      .ok (cmacW.tileCoord (stateVal [("x", 1)] "x") "x" 0 + 1)) := by
  have hI : cmacW.interval_size "x" ≠ 0 := by
    norm_num [CMAC.interval_size, CMAC.min_range, CMAC.max_range,
      CMAC.num_bins, CMAC.featSpec, cmacW]
  have hv : stateVal [("x", 3)] "x" =
      stateVal [("x", 1)] "x" + cmacW.interval_size "x" := by
    norm_num [stateVal, CMAC.interval_size, CMAC.min_range, CMAC.max_range,
      CMAC.num_bins, CMAC.featSpec, cmacW]
  have hq : 0 ≤ (stateVal [("x", 1)] "x" - cmacW.min_range "x" -
      cmacW.offset "x" 0) / cmacW.interval_size "x" ∨
      (stateVal [("x", 1)] "x" - cmacW.min_range "x" -
        cmacW.offset "x" 0) / cmacW.interval_size "x" ≤ -1 := by
    left
    norm_num [stateVal, CMAC.offset, CMAC.interval_size, CMAC.min_range,
      CMAC.max_range, CMAC.num_bins, CMAC.featSpec, cmacW]
  exact ⟨by decide, by decide, hI, hv,
    C6_tile_monotonic cmacW [("x", 1)] [("x", 3)] "x" 0 (by decide)
      (by decide) hI hv hq⟩

/-! ### Claim C5 -/

/-- C5 (amended): construction performs no feature-spec validation and never
raises the spec's ConfigurationError.  CMAC.__init__ fails (with a
ZeroDivisionError from the interval-size computation) exactly when some
feature has numBins = 0, and succeeds for every other configuration,
including inverted ranges (max ≤ min) and negative bin counts. -/
theorem C5_construct_no_validation (features : List (String × FeatureSpec))
    (num_tilings : ℕ) (rand : String → ℕ → ℚ) :
    (CMAC.construct features num_tilings rand =
        .ok ⟨features, num_tilings, rand⟩ ↔
      ∀ p ∈ features, p.2.numBins ≠ 0) ∧
    ((∃ p ∈ features, p.2.numBins = 0) →
      CMAC.construct features num_tilings rand = .error .zeroDivision) ∧
    CMAC.construct features num_tilings rand ≠
      .error .configurationError := by
  unfold CMAC.construct
  by_cases hall : ∀ p ∈ features, p.2.numBins ≠ 0
  · have hb : features.all (fun p => decide (p.2.numBins ≠ 0)) = true := by
      rw [List.all_eq_true]
      intro p hp
      exact decide_eq_true (hall p hp)
    rw [if_pos hb]
    refine ⟨⟨fun _ => hall, fun _ => rfl⟩, ?_, by simp⟩
    rintro ⟨p, hp, h0⟩
    exact absurd h0 (hall p hp)
  · have hb : ¬ (features.all (fun p => decide (p.2.numBins ≠ 0)) = true) := by
      rw [List.all_eq_true]
      intro hcl
      exact hall (fun p hp => of_decide_eq_true (hcl p hp))
    rw [if_neg hb]
    push_neg at hall
    rcases hall with ⟨p, hp, h0⟩
    refine ⟨⟨fun h => absurd h (by simp), fun h => absurd h0 (h p hp)⟩,
      fun _ => rfl, by simp⟩

/-- C5 counterexample: construction succeeds on a feature with max < min
(no ConfigurationError, no failure of any kind). -/
theorem C5_construct_cex :
    CMAC.construct [("x", ⟨0, -1, 2⟩)] 1 (fun _ _ => 0) =
      .ok ⟨[("x", ⟨0, -1, 2⟩)], 1, fun _ _ => 0⟩ ∧
    (⟨0, -1, 2⟩ : FeatureSpec).max ≤ (⟨0, -1, 2⟩ : FeatureSpec).min :=
  ⟨rfl, by norm_num⟩

/-- Witness for the amended C5: numBins = 0 yields the ZeroDivisionError. -/
theorem C5_construct_no_validation_witness :
    CMAC.construct [("y", ⟨0, 1, 0⟩)] 1 (fun _ _ => 0) =
      .error .zeroDivision :=
  (C5_construct_no_validation [("y", ⟨0, 1, 0⟩)] 1 (fun _ _ => 0)).2.1
    ⟨("y", ⟨0, 1, 0⟩), List.mem_cons_self _ _, rfl⟩

/-! ### Claim C8 -/

/-- On an invalid state, the tile-tuple encoding fails with the assert's
invalid-state error. -/
theorem get_state_as_tile_tuple_err {q : QvalueCMAC} {s : StateMap} (t : ℕ)
    (hnk : ¬ keysMatch q.cmac s) :
    q.get_state_as_tile_tuple s t = .error .invalidStateError := by
  unfold QvalueCMAC.get_state_as_tile_tuple
  rw [get_tiles_err t hnk]
  rfl

/-- On an invalid state, get_qvalue fails with the assert's invalid-state
error as soon as there is at least one tiling and the action is
configured (the action lookup happens before the tiling loop). -/
theorem get_qvalue_err {q : QvalueCMAC} {s : StateMap} {a : String} {av : ℕ}
    (hnk : ¬ keysMatch q.cmac s) (hnt : 0 < q.cmac.num_tilings)
    (ha : q.actions_map a = some av) :
    q.get_qvalue s a = .error .invalidStateError := by
  unfold QvalueCMAC.get_qvalue
  rw [show q.actions_map a = some av from ha]
  show (List.range q.cmac.num_tilings).foldlM
      (fun value t => (q.get_state_as_tile_tuple s t).map
        (fun tup => value + q.weight (tup, t, av))) 0 = _
  obtain ⟨n, hn⟩ : ∃ n, q.cmac.num_tilings = n + 1 :=
    ⟨q.cmac.num_tilings - 1, by omega⟩
  rw [hn, List.range_succ_eq_map, List.foldlM_cons]
  have herr := get_state_as_tile_tuple_err (q := q) (s := s) 0 hnk
  simp only [herr]
  rfl

/-- On an invalid state, update_eligibilities fails with the assert's
invalid-state error as soon as there is at least one tiling and the action
is configured (the loop's first iteration encodes the state). -/
theorem update_eligibilities_err {q : QvalueCMAC} {s : StateMap}
    {a : String} {av : ℕ} (hnk : ¬ keysMatch q.cmac s)
    (hnt : 0 < q.cmac.num_tilings) (ha : q.actions_map a = some av) :
    q.update_eligibilities s a = .error .invalidStateError := by
  unfold QvalueCMAC.update_eligibilities
  rw [show q.decay.actions_map a = some av from ha]
  show (List.range q.cmac.num_tilings).foldlM
      (fun qc t =>
        (qc.get_state_as_tile_tuple s t).map
          (fun tup =>
            { qc with eligibility := fun i =>
                if i = (tup, t, av) then 1
                else if i.1 = tup ∧ i.2.1 = t then 0
                else qc.eligibility i })) q.decay = _
  obtain ⟨n, hn⟩ : ∃ n, q.cmac.num_tilings = n + 1 :=
    ⟨q.cmac.num_tilings - 1, by omega⟩
  rw [hn, List.range_succ_eq_map, List.foldlM_cons]
  have hnk' : ¬ keysMatch q.decay.cmac s := hnk
  have herr := get_state_as_tile_tuple_err (q := q.decay) (s := s) 0 hnk'
  simp only [herr]
  rfl

/-- On an invalid state, the best-action scan fails with the assert's
invalid-state error as soon as there is at least one tiling and the
incumbent action is configured (its very first value lookup encodes the
state). -/
theorem get_best_err {q : QvalueCMAC} {s : StateMap} {a0 : String} {av : ℕ}
    (hnk : ¬ keysMatch q.cmac s) (hnt : 0 < q.cmac.num_tilings)
    (ha0 : q.actions_map a0 = some av) :
    q.get_best_action_and_qvalue_for_state s a0 =
      .error .invalidStateError := by
  unfold QvalueCMAC.get_best_action_and_qvalue_for_state
  rw [get_qvalue_err hnk hnt ha0]
  rfl

/-- C8: the encoder and every operation that encodes a state fail with the
invalid-state failure (the assert's AssertionError, the spec's
InvalidStateError) exactly when the state's key set is not the configured
feature set - a missing and an extra feature both fail - and with equal key
sets the encoder does not fail.  The encoding operations get_qvalue,
update_eligibilities and best-action selection fail the same way whenever
there is at least one tiling, as construction guarantees, and the action is
configured. -/
theorem C8_state_key_check (c : CMAC) (s : StateMap) (t : ℕ)
    (hs : (s.map Prod.fst).Nodup) (hc : c.keysList.Nodup) :
    (¬ (∀ f, f ∈ s.map Prod.fst ↔ f ∈ c.keysList) →
      (c.get_tiles s t = .error .invalidStateError ∧
        ∀ (q : QvalueCMAC) (a : String) (av : ℕ), q.cmac = c →
          0 < c.num_tilings → q.actions_map a = some av →
          (q.get_qvalue s a = .error .invalidStateError ∧
            q.update_eligibilities s a = .error .invalidStateError ∧
            q.get_best_action_and_qvalue_for_state s a =
              .error .invalidStateError))) ∧
    ((∀ f, f ∈ s.map Prod.fst ↔ f ∈ c.keysList) →
      c.get_tiles s t = .ok (fun f => c.tileCoord (stateVal s f) f t)) := by
  have hperm : keysMatch c s ↔ ∀ f, f ∈ s.map Prod.fst ↔ f ∈ c.keysList :=
    List.perm_ext_iff_of_nodup hs hc
  constructor
  · intro hne
    have hnk : ¬ keysMatch c s := fun h => hne (hperm.mp h)
    refine ⟨get_tiles_err t hnk, ?_⟩
    intro q a av hqc hnt ha
    have hnk' : ¬ keysMatch q.cmac s := by rw [hqc]; exact hnk
    have hnt' : 0 < q.cmac.num_tilings := by rw [hqc]; exact hnt
    exact ⟨get_qvalue_err hnk' hnt' ha,
      update_eligibilities_err hnk' hnt' ha,
      get_best_err hnk' hnt' ha⟩
  · intro heq
    exact get_tiles_ok t (hperm.mpr heq)

/-- Witness for C8: the empty state (a missing feature) makes the encoder,
the value lookup, the eligibility update and the best-action scan all fail
with the invalid-state error. -/
theorem C8_state_key_check_witness :
    (([] : StateMap).map Prod.fst).Nodup ∧
    cmacW.keysList.Nodup ∧
    cmacW.get_tiles [] 0 = .error .invalidStateError ∧
    qW.get_qvalue [] "A" = .error .invalidStateError ∧
    qW.update_eligibilities [] "A" = .error .invalidStateError ∧
    qW.get_best_action_and_qvalue_for_state [] "A" =
      .error .invalidStateError := by
  have hne : ¬ (∀ f, f ∈ ([] : StateMap).map Prod.fst ↔
      f ∈ cmacW.keysList) := by
    intro hall
    have hx := (hall "x").mpr (by decide)
    exact List.not_mem_nil _ hx
  have hmain := (C8_state_key_check cmacW [] 0 (by decide) (by decide)).1 hne
  have hops := hmain.2 qW "A" 0 rfl (by decide) rfl
  exact ⟨by decide, by decide, hmain.1, hops.1, hops.2.1, hops.2.2⟩

end CMACSpec
